import Mathlib

/-!
Verification development for the Tiki product ETL loader
(`etl_tiki_to_postgres.py` plus its connection helper).

The Python source is shallowly embedded: JSON values become an inductive
type, the products / images tables become lists of rows, the per-file
transaction becomes explicit committed/working state passing, and the
driver `main` becomes a pure function over an environment describing the
file system and the database's failure behaviour.
-/

namespace TikiEtl

/-- JSON values as decoded by Python's json module.  Floating point numbers
are not modelled (no claim depends on them); all numbers appearing in the
claims are integers. -/
inductive JVal where
  | null
  | bool (b : Bool)
  | int (n : Int)
  | str (s : String)
  | arr (elems : List JVal)
  | obj (fields : List (String × JVal))

/-- Dictionary lookup, modelling Python's dict.get (returns None when the
key is absent).  Python dicts have unique keys, so first-match lookup is
faithful. -/
def lookupField : List (String × JVal) → String → Option JVal
  | [], _ => none
  | (k, v) :: rest, key => if k = key then some v else lookupField rest key

/-- Value of a nonempty all-digit character list, used by the model of
Python's int() on strings. -/
def digitsVal (cs : List Char) : Option Nat :=
  if cs ≠ [] ∧ cs.all Char.isDigit then
    some (cs.foldl (fun a c => a * 10 + (c.toNat - 48)) 0)
  else none

/-- Python str.strip(): drop whitespace from both ends. -/
def pyStrip (s : String) : List Char :=
  ((s.toList.dropWhile Char.isWhitespace).reverse.dropWhile Char.isWhitespace).reverse

/-- Python int(s) for a string argument: surrounding whitespace is
stripped, an optional sign is allowed, then a nonempty run of digits.
(Underscore digit grouping accepted by CPython is not modelled; no claim
exercises it.) -/
def pyIntOfString (s : String) : Option Int :=
  match pyStrip s with
  | '+' :: rest => (digitsVal rest).map Int.ofNat
  | '-' :: rest => (digitsVal rest).map (fun n => -(n : Int))
  | cs => (digitsVal cs).map Int.ofNat

/-- Python int(x) applied to the result of dict.get: int() succeeds on
ints, bools and integer-shaped strings and raises on None (missing key or
JSON null), lists and dicts.  The Option result models raise-vs-return. -/
def pyInt : Option JVal → Option Int
  | some (.int n) => some n
  | some (.bool b) => some (if b then 1 else 0)
  | some (.str s) => pyIntOfString s
  | _ => none

/-- Python truthiness of a JSON value, modelling the source's if-url test. -/
def pyTruthy : JVal → Bool
  | .null => false
  | .bool b => b
  | .int n => n != 0
  | .str s => s ≠ ""
  | .arr xs => !xs.isEmpty
  | .obj kvs => !kvs.isEmpty

/-- Python str(x) for the values reaching the image-url conversion.  The
rendering of containers is abstracted (no claim inspects it); url values
in the claims are strings, returned verbatim. -/
def pyStr : JVal → String
  | .str s => s
  | .int n => toString n
  | .bool true => "True"
  | .bool false => "False"
  | .null => "None"
  | .arr _ => "<list>"
  | .obj _ => "<dict>"

/-! ## Batch helper: chunks (etl_tiki_to_postgres.py lines 107-110)

The source iterates i over range(0, len(seq), size) and yields
seq[i : i + size].  The fuel argument makes the loop structural; with a
positive step the loop performs at most len(seq) iterations, so fuel
len(seq) is always sufficient. -/

/-- One step per loop iteration of the source's range loop: while
i < len(seq), yield the slice seq[i : i+size] and advance i by size. -/
def chunksAux (seq : List α) (size : Nat) : Nat → Nat → List (List α)
  | 0, _ => []
  | fuel + 1, i =>
    if i < seq.length then ((seq.drop i).take size) :: chunksAux seq size fuel (i + size)
    else []

/-- chunks(seq, size): successive slices seq[i : i+size] for
i = 0, size, 2*size, ... below len(seq). -/
def chunks (seq : List α) (size : Nat) : List (List α) :=
  chunksAux seq size seq.length 0

theorem chunksAux_flatten (seq : List α) (size : Nat) (hs : 0 < size) :
    ∀ fuel i, seq.length - i ≤ fuel →
      (chunksAux seq size fuel i).flatten = seq.drop i := by
  intro fuel
  induction fuel with
  | zero =>
    intro i hi
    have : seq.length ≤ i := by omega
    simp [chunksAux, List.drop_eq_nil_of_le this]
  | succ n ih =>
    intro i hi
    by_cases h : i < seq.length
    · have hrec : seq.length - (i + size) ≤ n := by omega
      simp only [chunksAux, if_pos h, List.flatten_cons, ih (i + size) hrec]
      have hdd : seq.drop (i + size) = (seq.drop i).drop size := by
        rw [List.drop_drop]
      rw [hdd, List.take_append_drop]
    · have : seq.length ≤ i := by omega
      simp [chunksAux, h, List.drop_eq_nil_of_le this]

theorem ceil_div_step (n size : Nat) (hn : 0 < n) (hs : 0 < size) :
    (n + size - 1) / size = (n - size + size - 1) / size + 1 := by
  rcases le_or_lt n size with h | h
  · have h1 : n - size = 0 := by omega
    rw [h1]
    have h2 : (n + size - 1) / size = 1 :=
      Nat.div_eq_of_lt_le (by omega) (by omega)
    have h3 : (0 + size - 1) / size = 0 := Nat.div_eq_of_lt (by omega)
    omega
  · have h1 : n + size - 1 = (n - size + size - 1) + size := by omega
    rw [h1, Nat.add_div_right _ hs]

theorem chunksAux_length (seq : List α) (size : Nat) (hs : 0 < size) :
    ∀ fuel i, seq.length - i ≤ fuel →
      (chunksAux seq size fuel i).length = ((seq.length - i) + size - 1) / size := by
  intro fuel
  induction fuel with
  | zero =>
    intro i hi
    have h0 : seq.length - i = 0 := by omega
    have : ¬ i < seq.length := by omega
    simp [chunksAux, h0, Nat.div_eq_of_lt (show size - 1 < size by omega)]
  | succ n ih =>
    intro i hi
    by_cases h : i < seq.length
    · have hrec : seq.length - (i + size) ≤ n := by omega
      simp only [chunksAux, if_pos h, List.length_cons, ih (i + size) hrec]
      have hstep := ceil_div_step (seq.length - i) size (by omega) hs
      have heq : seq.length - (i + size) = seq.length - i - size := by omega
      rw [heq]
      omega
    · have h0 : seq.length - i = 0 := by omega
      simp [chunksAux, h, h0, Nat.div_eq_of_lt (show size - 1 < size by omega)]

theorem chunksAux_mem (seq : List α) (size : Nat) (hs : 0 < size) :
    ∀ fuel i, ∀ c ∈ chunksAux seq size fuel i, c.length ≤ size ∧ c ≠ [] := by
  intro fuel
  induction fuel with
  | zero => intro i c hc; simp [chunksAux] at hc
  | succ n ih =>
    intro i c hc
    by_cases h : i < seq.length
    · simp only [chunksAux, if_pos h, List.mem_cons] at hc
      rcases hc with rfl | hc
      · constructor
        · simp [List.length_take]
        · have hlen : ((seq.drop i).take size).length = min size (seq.length - i) := by
            simp [List.length_take, List.length_drop]
          intro hnil
          rw [hnil] at hlen
          simp at hlen
          omega
      · exact ih (i + size) c hc
    · simp [chunksAux, h] at hc

theorem chunksAux_eq_nil (seq : List α) (size : Nat) (fuel i : Nat)
    (h : seq.length ≤ i) : chunksAux seq size fuel i = [] := by
  cases fuel with
  | zero => rfl
  | succ n => simp [chunksAux, show ¬ i < seq.length by omega]

theorem chunksAux_full (seq : List α) (size : Nat) (_hs : 0 < size) :
    ∀ fuel i pre c post, chunksAux seq size fuel i = pre ++ c :: post →
      post ≠ [] → c.length = size := by
  intro fuel
  induction fuel with
  | zero =>
    intro i pre c post heq hpost
    simp [chunksAux] at heq
  | succ n ih =>
    intro i pre c post heq hpost
    by_cases h : i < seq.length
    · simp only [chunksAux, if_pos h] at heq
      cases pre with
      | nil =>
        simp only [List.nil_append, List.cons.injEq] at heq
        obtain ⟨rfl, hrest⟩ := heq
        have hnext : i + size < seq.length := by
          by_contra hle
          rw [chunksAux_eq_nil seq size n (i + size) (by omega)] at hrest
          exact hpost hrest.symm
        simp [List.length_take, List.length_drop]
        omega
      | cons p pre2 =>
        simp only [List.cons_append, List.cons.injEq] at heq
        exact ih (i + size) pre2 c post heq.2 hpost
    · rw [chunksAux_eq_nil seq size (n + 1) i (by omega)] at heq
      simp at heq

/-- C4: for every sequence of N items and every positive chunk size S, the
chunks function yields exactly ceil(N/S) contiguous, non-overlapping
subsequences in original order (their concatenation reproduces the
original sequence exactly), each nonempty and of length at most S, and
every chunk other than the last has length exactly S. -/
theorem C4_chunks_contract {α : Type} (seq : List α) (size : Nat) (hs : 0 < size) :
    (chunks seq size).length = (seq.length + size - 1) / size ∧
    (chunks seq size).flatten = seq ∧
    (∀ c ∈ chunks seq size, c.length ≤ size ∧ c ≠ []) ∧
    (∀ pre c post, chunks seq size = pre ++ c :: post → post ≠ [] →
      c.length = size) := by
  refine ⟨?_, ?_, ?_, ?_⟩
  · have h := chunksAux_length seq size hs seq.length 0 (by omega)
    simpa [chunks] using h
  · have h := chunksAux_flatten seq size hs seq.length 0 (by omega)
    simpa [chunks] using h
  · intro c hc
    exact chunksAux_mem seq size hs seq.length 0 c hc
  · intro pre c post heq hpost
    exact chunksAux_full seq size hs seq.length 0 pre c post heq hpost

theorem C4_chunks_contract_witness :
    0 < 2 ∧
    ((chunks ([0, 1, 2, 3, 4] : List Nat) 2).length
        = (([0, 1, 2, 3, 4] : List Nat).length + 2 - 1) / 2 ∧
      (chunks ([0, 1, 2, 3, 4] : List Nat) 2).flatten = [0, 1, 2, 3, 4] ∧
      (∀ c ∈ chunks ([0, 1, 2, 3, 4] : List Nat) 2, c.length ≤ 2 ∧ c ≠ []) ∧
      (∀ pre c post, chunks ([0, 1, 2, 3, 4] : List Nat) 2 = pre ++ c :: post →
        post ≠ [] → c.length = 2)) :=
  ⟨by decide, C4_chunks_contract [0, 1, 2, 3, 4] 2 (by decide)⟩

/-! ## Rows and tables

The tiki_products table (DDL lines 18-32) is a list of stored rows keyed
by id; tiki_product_images (DDL lines 34-43) is a list of rows keyed by
(product_id, position).  Optional text/numeric columns hold the JSON
value passed through by the validator (NULL when the key was absent). -/

/-- One tuple appended to product_rows in main (line 223):
(id, name, url_key, price, description, images, source_file). -/
structure ProductRow where
  id : Int
  name : Option JVal
  url_key : Option JVal
  price : Option JVal
  description : Option JVal
  images : JVal
  source_file : String

/-- One tuple appended to image_rows in main (line 228):
(product_id, position, image_url). -/
structure ImgRow where
  product_id : Int
  position : Nat
  image_url : String
deriving DecidableEq

/-- A persisted row of tiki_products, including the ingested_at column. -/
structure StoredProduct where
  id : Int
  name : Option JVal
  url_key : Option JVal
  price : Option JVal
  description : Option JVal
  images : JVal
  source_file : String
  ingested_at : Nat

/-- The stored row written for a ProductRow when the statement applies at
time now: every non-key column takes the new value and ingested_at is set
to now() (the ON CONFLICT clause of upsert_products, lines 125-132). -/
def toStored (now : Nat) (r : ProductRow) : StoredProduct :=
  { id := r.id, name := r.name, url_key := r.url_key, price := r.price,
    description := r.description, images := r.images,
    source_file := r.source_file, ingested_at := now }

/-- Effect of one row of the INSERT ... ON CONFLICT (id) DO UPDATE
statement of upsert_products: an existing row with the same id is
overwritten in place (non-key fields and ingested_at refreshed),
otherwise the row is appended. -/
def upsertRowOnce (now : Nat) (tbl : List StoredProduct) (r : ProductRow) :
    List StoredProduct :=
  if tbl.any (fun s => s.id == r.id) then
    tbl.map (fun s => if s.id == r.id then toStored now r else s)
  else tbl ++ [toStored now r]

/-- upsert_products (lines 117-135): applies the multi-row upsert
statement; rows take effect in order.  execute_values paging only splits
the statement, which the source notes is logically equivalent; duplicate
ids inside one statement (which PostgreSQL would reject) do not occur in
any claim and are modelled as sequential application. -/
def upsert_products (now : Nat) (tbl : List StoredProduct)
    (rows : List ProductRow) : List StoredProduct :=
  rows.foldl (upsertRowOnce now) tbl

/-- The sorted, deduplicated product ids of a batch of image rows
(upsert_images line 147: sorted set comprehension). -/
def batchPids (rows : List ImgRow) : List Int :=
  ((rows.map ImgRow.product_id).dedup).insertionSort (· ≤ ·)

/-- Effect of one row of the INSERT ... ON CONFLICT (product_id, position)
DO UPDATE statement of upsert_images: a row with the same key keeps its
key and takes the new image_url, otherwise the row is appended. -/
def insertImgRow (tbl : List ImgRow) (r : ImgRow) : List ImgRow :=
  if tbl.any (fun s => s.product_id == r.product_id && s.position == r.position) then
    tbl.map (fun s =>
      if s.product_id == r.product_id && s.position == r.position then
        { s with image_url := r.image_url }
      else s)
  else tbl ++ [r]

/-- upsert_images (lines 138-161): when the batch is nonempty, first
DELETE every stored row whose product_id is in the batch's id set, then
insert the batch's rows with conflict-overwrite on (product_id,
position). -/
def upsert_images (tbl : List ImgRow) (rows : List ImgRow) : List ImgRow :=
  let pids := batchPids rows
  let tbl1 :=
    if pids.isEmpty then tbl
    else tbl.filter (fun s => !pids.contains s.product_id)
  rows.foldl insertImgRow tbl1

/-- The per-file loop over image batches in main (lines 238-239): apply
upsert_images to successive chunks of the file's image rows. -/
def applyImgChunks (tbl : List ImgRow) (rows : List ImgRow) (size : Nat) :
    List ImgRow :=
  (chunks rows size).foldl upsert_images tbl

/-! ## Record validation (main, lines 210-228)

The loop body wraps only the id coercion in try/except: a non-dict item
(whose .get raises) or an id that int() rejects increments bad_items and
skips the item; otherwise the remaining fields are read with .get, images
defaulting to the empty list, and the row (and, in normalization mode,
one image row per truthy url at its original enumerate index) is
appended. -/

/-- Outcome of the loop body for one raw item: none when the item was
counted in bad_items, otherwise the product row and derived image rows. -/
def parseItem (normalize : Bool) (fname : String) (item : JVal) :
    Option (ProductRow × List ImgRow) :=
  match item with
  | .obj fields =>
    match pyInt (lookupField fields "id") with
    | none => none
    | some pid =>
      let images := (lookupField fields "images").getD (JVal.arr [])
      let row : ProductRow :=
        { id := pid, name := lookupField fields "name",
          url_key := lookupField fields "url_key",
          price := lookupField fields "price",
          description := lookupField fields "description",
          images := images, source_file := fname }
      let imgs :=
        if normalize then
          match images with
          | .arr xs =>
            xs.enum.filterMap (fun pu =>
              if pyTruthy pu.2 then
                some { product_id := pid, position := pu.1, image_url := pyStr pu.2 }
              else none)
          | _ => []
        else []
      some (row, imgs)
  | _ => none

/-- Accumulated state of the per-item loop. -/
structure FileParse where
  product_rows : List ProductRow
  image_rows : List ImgRow
  bad_items : Nat

/-- One iteration of the per-item loop: append the row and any derived
image rows, or count the item as bad. -/
def parseStep (normalize : Bool) (fname : String) (acc : FileParse) (item : JVal) :
    FileParse :=
  match parseItem normalize fname item with
  | none => { acc with bad_items := acc.bad_items + 1 }
  | some (row, imgs) =>
    { acc with product_rows := acc.product_rows ++ [row],
               image_rows := acc.image_rows ++ imgs }

/-- The whole per-item loop of main over one file's decoded items. -/
def parseFile (normalize : Bool) (fname : String) (items : List JVal) :
    FileParse :=
  items.foldl (parseStep normalize fname) ⟨[], [], 0⟩

/-! ## File discovery and decoding (lines 64-100) -/

/-- Python exceptions that reach the process-level handler of the script
(lines 257-271). -/
inductive PyExc where
  | fileNotFound (msg : String)
  | valueError (msg : String)
  | runtimeError (msg : String)
  | keyboardInterrupt
  | other (msg : String)
deriving DecidableEq

/-- What json.load produced for a file: a decoded root value, or a
JSONDecodeError with line/column detail. -/
inductive Decoded where
  | ok (v : JVal)
  | jsonError (line col : Nat) (msg : String)

/-- The input path ./data as the script can observe it. -/
inductive DataPath where
  | missing
  | file (name : String)
  | dir (entries : List String)

/-- The glob pattern products_*.json of iter_product_files (line 77). -/
def matchesGlob (s : String) : Bool :=
  s.startsWith "products_" && s.endsWith ".json"

/-- Lexicographic order on character lists, the order Python's sorted
uses on the (ASCII) file names. -/
def charListLe : List Char → List Char → Bool
  | [], _ => true
  | _ :: _, [] => false
  | a :: as, b :: bs => if a = b then charListLe as bs else decide (a < b)

/-- Lexicographic string comparison. -/
def strLe (a b : String) : Bool :=
  charListLe a.toList b.toList

/-- iter_product_files (lines 64-84): a missing path raises
FileNotFoundError; a single file is returned as-is; a directory is
globbed for products_*.json and the matches are sorted (Python's sorted
is modelled by insertion sort over lexicographic string order), raising
FileNotFoundError when nothing matches. -/
def iter_product_files (path : DataPath) : Except PyExc (List String) :=
  match path with
  | .missing => .error (.fileNotFound "Path not found: ./data")
  | .file n => .ok [n]
  | .dir entries =>
    let files := (entries.filter matchesGlob).insertionSort
      (fun a b => strLe a b = true)
    if files.isEmpty then
      .error (.fileNotFound "No files matching products_*.json found in: ./data")
    else .ok files

/-- load_products_from_file (lines 87-100): malformed JSON is re-raised
as RuntimeError carrying the file name and line/column; a non-list root
raises ValueError, which the blanket except clause also re-raises as
RuntimeError carrying the file name. -/
def load_products_from_file (name : String) (d : Decoded) :
    Except PyExc (List JVal) :=
  match d with
  | .ok (.arr xs) => .ok xs
  | .ok _ =>
    .error (.runtimeError
      ("Failed to read JSON " ++ name ++ ": JSON root must be a list"))
  | .jsonError line col msg =>
    .error (.runtimeError
      ("Invalid JSON in " ++ name ++ " (line " ++ toString line ++ ", col "
        ++ toString col ++ "): " ++ msg))

/-! ## Lemmas about the images upsert -/

theorem mem_insertImgRow (tbl : List ImgRow) (r : ImgRow) :
    ∀ x ∈ insertImgRow tbl r, x ∈ tbl ∨ x = r := by
  intro x hx
  unfold insertImgRow at hx
  by_cases ha : tbl.any (fun s => s.product_id == r.product_id && s.position == r.position)
  · rw [if_pos ha] at hx
    obtain ⟨t, ht, htx⟩ := List.mem_map.mp hx
    by_cases hkey : t.product_id == r.product_id && t.position == r.position
    · right
      rw [if_pos hkey] at htx
      simp only [Bool.and_eq_true, beq_iff_eq] at hkey
      rw [← htx]
      cases r
      simp_all
    · left
      rw [if_neg hkey] at htx
      rw [← htx]
      exact ht
  · rw [if_neg ha] at hx
    rcases List.mem_append.mp hx with h1 | h2
    · exact Or.inl h1
    · exact Or.inr (by simpa using h2)

theorem mem_foldl_insertImgRow :
    ∀ (rows : List ImgRow) (t0 : List ImgRow), ∀ x ∈ rows.foldl insertImgRow t0,
      x ∈ t0 ∨ x ∈ rows := by
  intro rows
  induction rows with
  | nil => intro t0 x hx; exact Or.inl hx
  | cons r rest ih =>
    intro t0 x hx
    rcases ih (insertImgRow t0 r) x hx with h1 | h2
    · rcases mem_insertImgRow t0 r x h1 with h3 | h4
      · exact Or.inl h3
      · exact Or.inr (by simp [h4])
    · exact Or.inr (by simp [h2])

theorem mem_batchPids (rows : List ImgRow) (pid : Int) :
    pid ∈ batchPids rows ↔ pid ∈ rows.map ImgRow.product_id := by
  unfold batchPids
  rw [(List.perm_insertionSort _ _).mem_iff, List.mem_dedup]

theorem batchPids_isEmpty (rows : List ImgRow) (h : rows ≠ []) :
    (batchPids rows).isEmpty = false := by
  rcases rows with _ | ⟨r, rest⟩
  · exact absurd rfl h
  · rw [List.isEmpty_eq_false_iff_exists_mem]
    exact ⟨r.product_id, (mem_batchPids _ _).mpr (by simp)⟩

theorem upsert_images_eq (tbl rows : List ImgRow) :
    upsert_images tbl rows
      = rows.foldl insertImgRow
          (if (batchPids rows).isEmpty then tbl
            else tbl.filter (fun s => !(batchPids rows).contains s.product_id)) := rfl

theorem mem_upsert_images (tbl rows : List ImgRow) :
    ∀ x ∈ upsert_images tbl rows,
      (x ∈ tbl ∧ x.product_id ∉ rows.map ImgRow.product_id) ∨ x ∈ rows := by
  intro x hx
  rw [upsert_images_eq] at hx
  by_cases hrows : rows = []
  · subst hrows
    simp only [List.foldl_nil] at hx
    have hxt : x ∈ tbl := by
      by_cases hp : (batchPids ([] : List ImgRow)).isEmpty
      · rwa [if_pos hp] at hx
      · rw [if_neg hp] at hx
        exact List.mem_of_mem_filter hx
    exact Or.inl ⟨hxt, by simp⟩
  · rw [if_neg (by rw [batchPids_isEmpty rows hrows]; simp)] at hx
    rcases mem_foldl_insertImgRow rows _ x hx with h1 | h2
    · left
      refine ⟨List.mem_of_mem_filter h1, ?_⟩
      have hkeep := List.of_mem_filter h1
      simp only [Bool.not_eq_true', List.contains, List.elem_eq_mem,
        decide_eq_false_iff_not] at hkeep
      rw [← mem_batchPids rows x.product_id]
      exact hkeep
    · exact Or.inr h2

theorem filter_filter_of_imp (p q : ImgRow → Bool)
    (h : ∀ x, p x = true → q x = true) :
    ∀ l : List ImgRow, (l.filter q).filter p = l.filter p := by
  intro l
  induction l with
  | nil => rfl
  | cons t rest ih =>
    by_cases hp : p t
    · have hq := h t hp
      rw [List.filter_cons_of_pos hq, List.filter_cons_of_pos hp,
        List.filter_cons_of_pos hp, ih]
    · by_cases hq : q t
      · rw [List.filter_cons_of_pos hq, List.filter_cons_of_neg (by simpa using hp),
          List.filter_cons_of_neg (by simpa using hp), ih]
      · rw [List.filter_cons_of_neg (by simpa using hq),
          List.filter_cons_of_neg (by simpa using hp), ih]

theorem filter_insertImgRow_other (t : List ImgRow) (r : ImgRow) (pid : Int)
    (h : r.product_id ≠ pid) :
    (insertImgRow t r).filter (fun x => x.product_id == pid)
      = t.filter (fun x => x.product_id == pid) := by
  unfold insertImgRow
  by_cases ha : t.any (fun s => s.product_id == r.product_id && s.position == r.position)
  · rw [if_pos ha]
    clear ha
    induction t with
    | nil => rfl
    | cons s rest ih =>
      by_cases hkey : s.product_id == r.product_id && s.position == r.position
      · have hsp : s.product_id ≠ pid := by
          simp only [Bool.and_eq_true, beq_iff_eq] at hkey
          rw [hkey.1]
          exact h
        simp only [List.map_cons, if_pos hkey]
        rw [List.filter_cons_of_neg (by simpa using hsp),
          List.filter_cons_of_neg (by simpa using hsp)]
        exact ih
      · simp only [List.map_cons, if_neg hkey]
        by_cases hsp : s.product_id = pid
        · rw [List.filter_cons_of_pos (by simpa using hsp),
            List.filter_cons_of_pos (by simpa using hsp), ih]
        · rw [List.filter_cons_of_neg (by simpa using hsp),
            List.filter_cons_of_neg (by simpa using hsp), ih]
  · rw [if_neg ha, List.filter_append]
    rw [List.filter_cons_of_neg (by simpa using h)]
    simp

theorem filter_foldl_insertImgRow_other (pid : Int) :
    ∀ (rows : List ImgRow) (t : List ImgRow), (∀ r ∈ rows, r.product_id ≠ pid) →
      (rows.foldl insertImgRow t).filter (fun x => x.product_id == pid)
        = t.filter (fun x => x.product_id == pid) := by
  intro rows
  induction rows with
  | nil => intro t _; rfl
  | cons r rest ih =>
    intro t hall
    rw [List.foldl_cons, ih (insertImgRow t r) (fun q hq => hall q (by simp [hq])),
      filter_insertImgRow_other t r pid (hall r (by simp))]

theorem filter_upsert_images_other (tbl rows : List ImgRow) (pid : Int)
    (h : ∀ r ∈ rows, r.product_id ≠ pid) :
    (upsert_images tbl rows).filter (fun x => x.product_id == pid)
      = tbl.filter (fun x => x.product_id == pid) := by
  rw [upsert_images_eq]
  rw [filter_foldl_insertImgRow_other pid rows _ h]
  by_cases hp : (batchPids rows).isEmpty
  · rw [if_pos hp]
  · rw [if_neg hp]
    apply filter_filter_of_imp
    intro x hx
    simp only [beq_iff_eq] at hx
    simp only [Bool.not_eq_true', List.contains, List.elem_eq_mem,
      decide_eq_false_iff_not]
    rw [mem_batchPids]
    intro hmem
    obtain ⟨r, hr, hrid⟩ := List.mem_map.mp hmem
    exact h r hr (by rw [hrid, hx])

theorem mem_chunksAux_subset (seq : List α) (size : Nat) :
    ∀ fuel i c, c ∈ chunksAux seq size fuel i → ∀ x ∈ c, x ∈ seq := by
  intro fuel
  induction fuel with
  | zero => intro i c hc; simp [chunksAux] at hc
  | succ n ih =>
    intro i c hc x hx
    by_cases h : i < seq.length
    · simp only [chunksAux, if_pos h, List.mem_cons] at hc
      rcases hc with rfl | hc
      · exact List.mem_of_mem_drop (List.mem_of_mem_take hx)
      · exact ih (i + size) c hc x hx
    · simp [chunksAux, h] at hc

theorem chunks_flatten (rows : List α) (k : Nat) (hk : 0 < k) :
    (chunks rows k).flatten = rows := by
  have h := chunksAux_flatten rows k hk rows.length 0 (by omega)
  simpa [chunks] using h

theorem filter_foldl_upsert_images_other (pid : Int) :
    ∀ (cs : List (List ImgRow)) (t : List ImgRow),
      (∀ c ∈ cs, ∀ r ∈ c, r.product_id ≠ pid) →
      (cs.foldl upsert_images t).filter (fun x => x.product_id == pid)
        = t.filter (fun x => x.product_id == pid) := by
  intro cs
  induction cs with
  | nil => intro t _; rfl
  | cons c cs2 ih =>
    intro t hall
    rw [List.foldl_cons, ih (upsert_images t c) (fun c2 h2 => hall c2 (by simp [h2])),
      filter_upsert_images_other t c pid (hall c (by simp))]

theorem pid_mem_foldl_upsert_images (pid : Int) :
    ∀ (cs : List (List ImgRow)) (t : List ImgRow),
      pid ∈ cs.flatten.map ImgRow.product_id →
      ∀ x ∈ cs.foldl upsert_images t, x.product_id = pid → x ∈ cs.flatten := by
  intro cs
  induction cs with
  | nil => intro t hpid; simp at hpid
  | cons c cs2 ih =>
    intro t hpid x hx hxp
    simp only [List.flatten_cons, List.mem_append]
    by_cases h2 : pid ∈ cs2.flatten.map ImgRow.product_id
    · exact Or.inr (ih (upsert_images t c) h2 x hx hxp)
    · have hc : pid ∈ c.map ImgRow.product_id := by
        simp only [List.flatten_cons, List.map_append, List.mem_append] at hpid
        rcases hpid with h | h
        · exact h
        · exact absurd h h2
      have hall : ∀ c2 ∈ cs2, ∀ r ∈ c2, r.product_id ≠ pid := by
        intro c2 hc2 r hr heq
        exact h2 (List.mem_map.mpr ⟨r, List.mem_flatten.mpr ⟨c2, hc2, hr⟩, heq⟩)
      have hxf : x ∈ (upsert_images t c).filter (fun y => y.product_id == pid) := by
        rw [← filter_foldl_upsert_images_other pid cs2 (upsert_images t c) hall]
        exact List.mem_filter.mpr ⟨hx, by simp [hxp]⟩
      rcases mem_upsert_images t c x (List.mem_of_mem_filter hxf) with ⟨_, habs⟩ | hmem
      · rw [hxp] at habs
        exact absurd hc habs
      · exact Or.inl hmem

/-- C2: applying upsert_images chunk by chunk (as the orchestrator does)
over a batch of image rows deletes every previously stored image row of
every product id occurring in the batch: any surviving row for such an id
is one of the batch's rows, so when all batch rows for that id have
positions below the new image-list length, no stored row at a position
beyond it remains. -/
theorem C2_image_replacement (tbl rows : List ImgRow) (k : Nat) (pid : Int)
    (hk : 0 < k) (hpid : pid ∈ rows.map ImgRow.product_id) :
    (∀ x ∈ applyImgChunks tbl rows k, x.product_id = pid → x ∈ rows) ∧
    (∀ n, (∀ r ∈ rows, r.product_id = pid → r.position < n) →
      ∀ x ∈ applyImgChunks tbl rows k, x.product_id = pid → x.position < n) := by
  have hfl : (chunks rows k).flatten = rows := chunks_flatten rows k hk
  have hmain : ∀ x ∈ applyImgChunks tbl rows k, x.product_id = pid → x ∈ rows := by
    intro x hx hxp
    have hm := pid_mem_foldl_upsert_images pid (chunks rows k) tbl
      (by rw [hfl]; exact hpid) x hx hxp
    rwa [hfl] at hm
  exact ⟨hmain, fun n hbound x hx hxp => hbound x (hmain x hx hxp) hxp⟩

theorem C2_image_replacement_witness :
    (0 < 2 ∧ (1 : Int) ∈ [(⟨1, 0, "new0"⟩ : ImgRow)].map ImgRow.product_id) ∧
    ((∀ x ∈ applyImgChunks [⟨1, 0, "old0"⟩, ⟨1, 1, "old1"⟩] [⟨1, 0, "new0"⟩] 2,
        x.product_id = 1 → x ∈ [(⟨1, 0, "new0"⟩ : ImgRow)]) ∧
      (∀ n, (∀ r ∈ [(⟨1, 0, "new0"⟩ : ImgRow)], r.product_id = 1 → r.position < n) →
        ∀ x ∈ applyImgChunks [⟨1, 0, "old0"⟩, ⟨1, 1, "old1"⟩] [⟨1, 0, "new0"⟩] 2,
          x.product_id = 1 → x.position < n)) :=
  ⟨⟨by decide, by decide⟩,
    C2_image_replacement [⟨1, 0, "old0"⟩, ⟨1, 1, "old1"⟩] [⟨1, 0, "new0"⟩] 2 1
      (by decide) (by decide)⟩

theorem filterMap_enum_falsy (pid : Int) (xs : List JVal)
    (h : ∀ u ∈ xs, pyTruthy u = false) :
    xs.enum.filterMap (fun pu =>
      if pyTruthy pu.2 then
        some ({ product_id := pid, position := pu.1, image_url := pyStr pu.2 } : ImgRow)
      else none) = [] := by
  rw [List.filterMap_eq_nil_iff]
  intro pu hpu
  have hmem : pu.2 ∈ xs := by
    have := List.enum_map_snd xs
    rw [← this]
    exact List.mem_map_of_mem Prod.snd hpu
  simp [h pu.2 hmem]

/-- C10: upsert_images only deletes image rows of product ids occurring
in the batch it is given; a record whose images key is absent, an empty
list, or a list of only falsy entries contributes no image rows, so a
normalization-mode run over a file whose image rows never mention a
product id leaves that product's stored image rows unchanged. -/
theorem C10_no_image_rows_frame (fname : String) (items : List JVal)
    (tbl : List ImgRow) (k : Nat) (pid : Int)
    (hno : ∀ r ∈ (parseFile true fname items).image_rows, r.product_id ≠ pid) :
    ((applyImgChunks tbl (parseFile true fname items).image_rows k).filter
        (fun x => x.product_id == pid)
      = tbl.filter (fun x => x.product_id == pid)) ∧
    (∀ fields : List (String × JVal),
      (lookupField fields "images" = none ∨
        lookupField fields "images" = some (.arr []) ∨
        (∃ xs, lookupField fields "images" = some (.arr xs) ∧
          ∀ u ∈ xs, pyTruthy u = false)) →
      ∀ row imgs, parseItem true fname (.obj fields) = some (row, imgs) →
        imgs = []) := by
  constructor
  · apply filter_foldl_upsert_images_other
    intro c hc r hr
    exact hno r (mem_chunksAux_subset _ k _ 0 c hc r hr)
  · intro fields hcase row imgs hparse
    cases hid : pyInt (lookupField fields "id") with
    | none => simp [parseItem, hid] at hparse
    | some pid2 =>
      simp only [parseItem, hid, if_true, Option.some.injEq, Prod.mk.injEq] at hparse
      rcases hcase with hn | he | ⟨xs, hx, hfalsy⟩
      · rw [hn] at hparse
        simpa using hparse.2.symm
      · rw [he] at hparse
        simpa using hparse.2.symm
      · rw [hx] at hparse
        rw [← hparse.2]
        simpa using filterMap_enum_falsy pid2 xs hfalsy

/-- Concrete file content for the image-frame claim: one record whose
images list holds only a falsy (empty-string) url. -/
def itemsC10 : List JVal := [.obj [("id", .int 1), ("images", .arr [.str ""])]]

theorem C10_no_image_rows_frame_witness :
    (∀ r ∈ (parseFile true "f" itemsC10).image_rows, r.product_id ≠ 1) ∧
    (((applyImgChunks [⟨1, 0, "keep"⟩] (parseFile true "f" itemsC10).image_rows 2).filter
        (fun x => x.product_id == (1 : Int))
      = ([⟨1, 0, "keep"⟩] : List ImgRow).filter (fun x => x.product_id == (1 : Int))) ∧
      (∀ fields : List (String × JVal),
        (lookupField fields "images" = none ∨
          lookupField fields "images" = some (.arr []) ∨
          (∃ xs, lookupField fields "images" = some (.arr xs) ∧
            ∀ u ∈ xs, pyTruthy u = false)) →
        ∀ row imgs, parseItem true "f" (.obj fields) = some (row, imgs) →
          imgs = [])) := by
  have h0 : (parseFile true "f" itemsC10).image_rows = [] := by with_unfolding_all rfl
  have hno : ∀ r ∈ (parseFile true "f" itemsC10).image_rows, r.product_id ≠ 1 := by
    intro r hr
    rw [h0] at hr
    cases hr
  exact ⟨hno, C10_no_image_rows_frame "f" itemsC10 [⟨1, 0, "keep"⟩] 2 1 hno⟩

/-! ## The run driver main (lines 168-254) and process handler (257-271)

The database is modelled by its committed state; a file's statements act
on a working copy that becomes committed only at conn.commit(), and a
statement error discards the working copy (conn.rollback()).  The
environment fixes what the run can observe: the data path, each file's
decoded content, whether connecting succeeds, whether table creation is
privileged, and which statement (if any) raises while a file's batches
are applied. -/

/-- Database state: whether the two tables have been created, and their
rows. -/
structure DB where
  products_exists : Bool
  images_exists : Bool
  products : List StoredProduct
  images : List ImgRow

/-- The world one run executes against.  prodFailAt f (resp. imgFailAt f)
is the index of the upsert_products (resp. upsert_images) statement that
raises while file f's batches are applied, if any. -/
structure Env where
  path : DataPath
  content : String → Decoded
  connectOk : Bool
  privilegeOk : Bool
  prodFailAt : String → Option Nat
  imgFailAt : String → Option Nat
  initDB : DB

/-- The chunk loop over product batches (lines 234-235): each successful
statement upserts its chunk into the working table and adds the chunk's
length to total_products; a raising statement has no effect and aborts
the loop with the totals accrued so far. -/
def runProdChunks (now : Nat) (failAt : Option Nat) :
    List (List ProductRow) → Nat → List StoredProduct → Nat →
    Except Nat (List StoredProduct × Nat)
  | [], _, tbl, tp => .ok (tbl, tp)
  | c :: cs, idx, tbl, tp =>
    if failAt = some idx then .error tp
    else runProdChunks now failAt cs (idx + 1) (upsert_products now tbl c) (tp + c.length)

/-- The chunk loop over image batches (lines 238-239), also counting how
many times upsert_images was invoked. -/
def runImgChunks (failAt : Option Nat) :
    List (List ImgRow) → Nat → List ImgRow → Nat → Nat →
    Except (Nat × Nat) (List ImgRow × Nat × Nat)
  | [], _, tbl, ti, calls => .ok (tbl, ti, calls)
  | c :: cs, idx, tbl, ti, calls =>
    if failAt = some idx then .error (ti, calls)
    else runImgChunks failAt cs (idx + 1) (upsert_images tbl c) (ti + c.length) (calls + 1)

/-- Result of the guarded block (lines 233-246) for one file: success
carries the new working database and the deltas to the run totals;
failure carries the totals accrued before the raising statement (the
working table changes are rolled back by the caller). -/
inductive FileApply where
  | failed (tp ti calls : Nat)
  | applied (db : DB) (tp ti calls : Nat)

/-- Steps 3-4 of the per-file algorithm: apply the product chunks, then
(only in normalization mode, and only when image rows exist) the image
chunks, against a working copy of the committed database. -/
def applyFile (env : Env) (normalize : Bool) (batch_size now : Nat)
    (fname : String) (fp : FileParse) (db : DB) : FileApply :=
  match runProdChunks now (env.prodFailAt fname)
      (chunks fp.product_rows batch_size) 0 db.products 0 with
  | .error tp => .failed tp 0 0
  | .ok (ptbl, tp) =>
    if normalize && !fp.image_rows.isEmpty then
      match runImgChunks (env.imgFailAt fname)
          (chunks fp.image_rows (batch_size * 2)) 0 db.images 0 0 with
      | .error (ti, calls) => .failed tp ti calls
      | .ok (itbl, ti, calls) =>
        .applied { db with products := ptbl, images := itbl } tp ti calls
    else .applied { db with products := ptbl } tp 0 0

/-- Outcome of the loop body of main (lines 203-246) for one file against
a committed database: a decode error propagates out of main; a statement
error rolls the file back and makes main return 3; success commits the
working database and adds the file's deltas to the run totals. -/
inductive FileResult where
  | decodeErr (e : PyExc)
  | upsertErr (tp ti calls : Nat)
  | success (db : DB) (tp ti calls : Nat)

/-- One iteration of the file loop: decode, validate, apply, commit or
roll back. -/
def processOneFile (env : Env) (normalize : Bool) (batch_size now : Nat)
    (fname : String) (db : DB) : FileResult :=
  match load_products_from_file fname (env.content fname) with
  | .error e => .decodeErr e
  | .ok items =>
    match applyFile env normalize batch_size now fname
        (parseFile normalize fname items) db with
    | .failed tp ti calls => .upsertErr tp ti calls
    | .applied db2 tp ti calls => .success db2 tp ti calls

/-- Run-level loop state: the committed database, the running totals, the
count of upsert_images invocations and the files committed so far. -/
structure LoopSt where
  db : DB
  tp : Nat
  ti : Nat
  calls : Nat
  committed : List String

/-- The file loop of main: on a decode error the exception escapes main
(the loop's try only guards the database work); on a statement error main
rolls back and returns 3 without touching the remaining files; otherwise
the file is committed and the loop continues, returning 0 after the last
file. -/
def processFiles (env : Env) (normalize : Bool) (batch_size now : Nat) :
    List String → LoopSt → Except PyExc Int × LoopSt
  | [], st => (.ok 0, st)
  | fname :: rest, st =>
    match processOneFile env normalize batch_size now fname st.db with
    | .decodeErr e => (.error e, st)
    | .upsertErr tp ti calls =>
      (.ok 3, { st with tp := st.tp + tp, ti := st.ti + ti, calls := st.calls + calls })
    | .success db2 tp ti calls =>
      processFiles env normalize batch_size now rest
        { db := db2, tp := st.tp + tp, ti := st.ti + ti,
          calls := st.calls + calls, committed := st.committed ++ [fname] }

/-- Table creation (lines 186-200): CREATE TABLE IF NOT EXISTS for the
products table, and for the images table only in normalization mode,
then commit. -/
def runDDL (db : DB) (normalize : Bool) : DB :=
  let db1 := { db with products_exists := true }
  if normalize then { db1 with images_exists := true } else db1

/-- What a whole run produced: main's outcome (a return value or a
propagating exception), the committed database when the connection
closed, the totals, the upsert_images invocation count and the committed
files. -/
structure RunOut where
  result : Except PyExc Int
  db : DB
  tp : Nat
  ti : Nat
  calls : Nat
  committed : List String

/-- The body of main (lines 168-254) with the normalize_images flag and
batch size as parameters: discover files (FileNotFoundError propagates),
connect (OperationalError is caught, returning 3), create tables
(InsufficientPrivilege is caught after rollback, returning 3), then run
the file loop. -/
def mainWith (env : Env) (normalize : Bool) (batch_size now : Nat) : RunOut :=
  match iter_product_files env.path with
  | .error e => ⟨.error e, env.initDB, 0, 0, 0, []⟩
  | .ok files =>
    if !env.connectOk then ⟨.ok 3, env.initDB, 0, 0, 0, []⟩
    else if !env.privilegeOk then ⟨.ok 3, env.initDB, 0, 0, 0, []⟩
    else
      let out := processFiles env normalize batch_size now files
        ⟨runDDL env.initDB normalize, 0, 0, 0, []⟩
      ⟨out.1, out.2.db, out.2.tp, out.2.ti, out.2.calls, out.2.committed⟩

/-- main itself (lines 168-172): batch_size is 1000 and normalize_images
is the constant False. -/
def mainRun (env : Env) (now : Nat) : RunOut :=
  mainWith env false 1000 now

/-- The except chain of the process entry point (lines 257-271):
FileNotFoundError, ValueError and RuntimeError exit 2, KeyboardInterrupt
exits 130, any other exception exits 4, and a normal return of main is
the exit status. -/
def classifyExit : Except PyExc Int → Int
  | .ok n => n
  | .error (.fileNotFound _) => 2
  | .error (.valueError _) => 2
  | .error (.runtimeError _) => 2
  | .error .keyboardInterrupt => 130
  | .error (.other _) => 4

/-- Process exit status of a full run. -/
def topLevelExit (env : Env) (now : Nat) : Int :=
  classifyExit (mainRun env now).result

/-! ## Lemmas about the products upsert -/

theorem id_toStored (now : Nat) (r : ProductRow) : (toStored now r).id = r.id := rfl

theorem ids_map_upsert (now : Nat) (r : ProductRow) (tbl : List StoredProduct) :
    (tbl.map (fun s => if s.id == r.id then toStored now r else s)).map StoredProduct.id
      = tbl.map StoredProduct.id := by
  induction tbl with
  | nil => rfl
  | cons t rest ih =>
    simp only [List.map_cons, ih, List.cons.injEq, and_true]
    by_cases h : t.id = r.id
    · simp [h, toStored]
    · simp [h]

theorem nodup_upsertRowOnce (now : Nat) (tbl : List StoredProduct) (r : ProductRow)
    (h : (tbl.map StoredProduct.id).Nodup) :
    ((upsertRowOnce now tbl r).map StoredProduct.id).Nodup := by
  unfold upsertRowOnce
  by_cases ha : tbl.any (fun s => s.id == r.id)
  · rw [if_pos ha, ids_map_upsert]
    exact h
  · rw [if_neg ha]
    have hnotin : r.id ∉ tbl.map StoredProduct.id := by
      intro hmem
      obtain ⟨s, hs, hsid⟩ := List.mem_map.mp hmem
      exact ha (List.any_eq_true.mpr ⟨s, hs, by simp [hsid]⟩)
    simp only [List.map_append, List.map_cons, List.map_nil]
    rw [List.nodup_append]
    refine ⟨h, List.nodup_singleton _, ?_⟩
    intro a ha2 hb
    simp only [toStored, List.mem_singleton] at hb
    subst hb
    exact hnotin ha2

theorem nodup_upsert_products (now : Nat) (tbl : List StoredProduct)
    (rows : List ProductRow) (h : (tbl.map StoredProduct.id).Nodup) :
    ((upsert_products now tbl rows).map StoredProduct.id).Nodup := by
  induction rows generalizing tbl with
  | nil => exact h
  | cons q rest ih => exact ih (upsertRowOnce now tbl q) (nodup_upsertRowOnce now tbl q h)

theorem find?_map_replace_self (now : Nat) (r : ProductRow) :
    ∀ tbl : List StoredProduct, (∃ s ∈ tbl, s.id = r.id) →
      (tbl.map (fun s => if s.id == r.id then toStored now r else s)).find?
        (fun s => s.id == r.id) = some (toStored now r) := by
  intro tbl
  induction tbl with
  | nil => intro h; simp at h
  | cons t rest ih =>
    intro hmem
    by_cases ht : t.id = r.id
    · simp [List.find?_cons, ht, toStored]
    · have hrest : ∃ s ∈ rest, s.id = r.id := by
        obtain ⟨s, hs, hsid⟩ := hmem
        rcases List.mem_cons.mp hs with rfl | hs2
        · exact absurd hsid ht
        · exact ⟨s, hs2, hsid⟩
      simpa [List.find?_cons, ht] using ih hrest

theorem find?_upsertRowOnce_self (now : Nat) (tbl : List StoredProduct) (r : ProductRow) :
    (upsertRowOnce now tbl r).find? (fun s => s.id == r.id) = some (toStored now r) := by
  unfold upsertRowOnce
  by_cases ha : tbl.any (fun s => s.id == r.id)
  · rw [if_pos ha]
    obtain ⟨s0, hs0, hs0id⟩ := List.any_eq_true.mp ha
    exact find?_map_replace_self now r tbl ⟨s0, hs0, by simpa using hs0id⟩
  · rw [if_neg ha]
    have hnone : tbl.find? (fun s => s.id == r.id) = none := by
      rw [List.find?_eq_none]
      intro s hs hbeq
      exact ha (List.any_eq_true.mpr ⟨s, hs, hbeq⟩)
    rw [List.find?_append, hnone]
    simp [toStored]

theorem find?_upsertRowOnce_other (now : Nat) (tbl : List StoredProduct)
    (r : ProductRow) (pid : Int) (h : r.id ≠ pid) :
    (upsertRowOnce now tbl r).find? (fun s => s.id == pid)
      = tbl.find? (fun s => s.id == pid) := by
  unfold upsertRowOnce
  by_cases ha : tbl.any (fun s => s.id == r.id)
  · rw [if_pos ha]
    clear ha
    induction tbl with
    | nil => rfl
    | cons t rest ih =>
      by_cases ht : t.id = r.id
      · have htp : ¬ t.id = pid := by rw [ht]; exact h
        simpa [List.find?_cons, ht, htp, toStored, h] using ih
      · by_cases htp : t.id = pid
        · simp [List.find?_cons, htp, Ne.symm h]
        · simpa [List.find?_cons, ht, htp] using ih
  · rw [if_neg ha, List.find?_append]
    have hsing : List.find? (fun s => s.id == pid) [toStored now r] = none := by
      simp [toStored, h]
    rw [hsing]
    cases tbl.find? (fun s => s.id == pid) <;> rfl

theorem find?_upsert_products_absent (now : Nat) (tbl : List StoredProduct)
    (rows : List ProductRow) (pid : Int)
    (h : ∀ q ∈ rows, q.id ≠ pid) :
    (upsert_products now tbl rows).find? (fun s => s.id == pid)
      = tbl.find? (fun s => s.id == pid) := by
  induction rows generalizing tbl with
  | nil => rfl
  | cons q rest ih =>
    have hq : q.id ≠ pid := h q (by simp)
    have hrest : ∀ q2 ∈ rest, q2.id ≠ pid := fun q2 hm => h q2 (by simp [hm])
    calc (upsert_products now tbl (q :: rest)).find? (fun s => s.id == pid)
        = (upsert_products now (upsertRowOnce now tbl q) rest).find?
            (fun s => s.id == pid) := rfl
      _ = (upsertRowOnce now tbl q).find? (fun s => s.id == pid) := ih _ hrest
      _ = tbl.find? (fun s => s.id == pid) := find?_upsertRowOnce_other now tbl q pid hq

theorem map_replace_of_absent (now : Nat) (r : ProductRow) :
    ∀ rest : List StoredProduct, (∀ s ∈ rest, s.id ≠ r.id) →
      rest.map (fun s => if s.id == r.id then toStored now r else s) = rest := by
  intro rest
  induction rest with
  | nil => intro _; rfl
  | cons t rest2 ih =>
    intro habs
    have ht : t.id ≠ r.id := habs t (by simp)
    simp only [List.map_cons, List.cons.injEq]
    exact ⟨by simp [ht], ih (fun s hs => habs s (by simp [hs]))⟩

theorem filter_of_absent (x : Int) :
    ∀ rest : List StoredProduct, (∀ s ∈ rest, s.id ≠ x) →
      rest.filter (fun s => s.id == x) = [] := by
  intro rest
  induction rest with
  | nil => intro _; rfl
  | cons t rest2 ih =>
    intro habs
    have ht : t.id ≠ x := habs t (by simp)
    rw [List.filter_cons_of_neg (by simpa using ht)]
    exact ih (fun s hs => habs s (by simp [hs]))

theorem filter_upsertRowOnce_exists (now : Nat) (r : ProductRow) :
    ∀ tbl : List StoredProduct, (tbl.map StoredProduct.id).Nodup →
      (∃ s ∈ tbl, s.id = r.id) →
      (upsertRowOnce now tbl r).filter (fun s => s.id == r.id)
        = [toStored now r] := by
  intro tbl hnd hex
  have ha : tbl.any (fun s => s.id == r.id) = true := by
    obtain ⟨s, hs, hsid⟩ := hex
    exact List.any_eq_true.mpr ⟨s, hs, by simpa using hsid⟩
  unfold upsertRowOnce
  rw [if_pos ha]
  clear ha
  induction tbl with
  | nil => simp at hex
  | cons t rest ih =>
    by_cases ht : t.id = r.id
    · have habs : ∀ s ∈ rest, s.id ≠ r.id := by
        intro s hs heq
        rw [List.map_cons, List.nodup_cons] at hnd
        exact hnd.1 (by rw [ht]; exact heq ▸ List.mem_map_of_mem StoredProduct.id hs)
      rw [List.map_cons, if_pos (by simpa using ht), map_replace_of_absent now r rest habs,
        List.filter_cons_of_pos (by simp [toStored]), filter_of_absent r.id rest habs]
    · have hrest : ∃ s ∈ rest, s.id = r.id := by
        obtain ⟨s, hs, hsid⟩ := hex
        rcases List.mem_cons.mp hs with rfl | hs2
        · exact absurd hsid ht
        · exact ⟨s, hs2, hsid⟩
      rw [List.map_cons, if_neg (by simpa using ht),
        List.filter_cons_of_neg (by simpa using ht)]
      exact ih (by rw [List.map_cons, List.nodup_cons] at hnd; exact hnd.2) hrest

/-- C3: upserting a product row whose id already exists in the products
table leaves exactly one stored row for that id — with every non-key
field equal to the newer row's values and ingested_at refreshed to the
apply time — and the table never holds two rows with the same id (the
id-uniqueness invariant is preserved by every upsert batch). -/
theorem C3_product_upsert (now : Nat) (tbl : List StoredProduct) (r : ProductRow)
    (hnd : (tbl.map StoredProduct.id).Nodup) (hex : ∃ s ∈ tbl, s.id = r.id) :
    (upsert_products now tbl [r]).filter (fun s => s.id == r.id)
      = [{ id := r.id, name := r.name, url_key := r.url_key, price := r.price,
           description := r.description, images := r.images,
           source_file := r.source_file, ingested_at := now }] ∧
    (∀ rows : List ProductRow,
      ((upsert_products now tbl rows).map StoredProduct.id).Nodup) := by
  constructor
  · exact filter_upsertRowOnce_exists now r tbl hnd hex
  · intro rows
    exact nodup_upsert_products now tbl rows hnd

/-- Concrete stored row used to instantiate the products-upsert claims. -/
def oldStored : StoredProduct :=
  ⟨1, some (.str "old"), none, none, none, .arr [], "f0", 0⟩

/-- Concrete incoming row used to instantiate the products-upsert claims. -/
def newRow : ProductRow :=
  ⟨1, some (.str "new"), none, none, none, .arr [.str "u"], "f1"⟩

theorem C3_product_upsert_witness :
    (([oldStored].map StoredProduct.id).Nodup ∧ (∃ s ∈ [oldStored], s.id = newRow.id)) ∧
    (upsert_products 5 [oldStored] [newRow]).filter (fun s => s.id == newRow.id)
      = [⟨1, some (.str "new"), none, none, none, .arr [.str "u"], "f1", 5⟩] :=
  ⟨⟨by simp, ⟨oldStored, by simp, rfl⟩⟩,
    (C3_product_upsert 5 [oldStored] newRow (by simp) ⟨oldStored, by simp, rfl⟩).1⟩

theorem find?_upsert_products_last (now : Nat) (tbl : List StoredProduct)
    (rows : List ProductRow) (pid : Int) (rB : ProductRow)
    (h : rows.reverse.find? (fun q => q.id == pid) = some rB) :
    (upsert_products now tbl rows).find? (fun s => s.id == pid)
      = some (toStored now rB) := by
  induction rows generalizing tbl with
  | nil => simp at h
  | cons q rest ih =>
    rw [List.reverse_cons, List.find?_append] at h
    cases hrest : rest.reverse.find? (fun q2 => q2.id == pid) with
    | some r2 =>
      rw [hrest] at h
      simp only [Option.or] at h
      obtain rfl : r2 = rB := by injection h
      exact ih (upsertRowOnce now tbl q) hrest
    | none =>
      rw [hrest] at h
      simp only [Option.none_or] at h
      have hnone : ∀ q2 ∈ rest, q2.id ≠ pid := by
        intro q2 hm heq
        have := List.find?_eq_none.mp hrest q2 (by simpa using hm)
        simp [heq] at this
      by_cases hq : q.id = pid
      · have hfq : List.find? (fun q2 => q2.id == pid) [q] = some q := by simp [hq]
        rw [hfq] at h
        obtain rfl : q = rB := by injection h
        calc (upsert_products now tbl (q :: rest)).find? (fun s => s.id == pid)
            = (upsert_products now (upsertRowOnce now tbl q) rest).find?
                (fun s => s.id == pid) := rfl
          _ = (upsertRowOnce now tbl q).find? (fun s => s.id == pid) :=
              find?_upsert_products_absent now _ rest pid hnone
          _ = some (toStored now q) := by
              have := find?_upsertRowOnce_self now tbl q
              simpa [hq] using this
      · simp [List.find?_cons, hq] at h

/-! ## Lemmas about the record validator -/

theorem parseFold_spec (normalize : Bool) (fname : String) :
    ∀ (items : List JVal) (acc : FileParse),
      items.foldl (parseStep normalize fname) acc =
        ⟨acc.product_rows
            ++ items.filterMap (fun it => (parseItem normalize fname it).map Prod.fst),
          acc.image_rows
            ++ items.flatMap (fun it =>
                ((parseItem normalize fname it).map Prod.snd).getD []),
          acc.bad_items
            + items.countP (fun it => (parseItem normalize fname it).isNone)⟩ := by
  intro items
  induction items with
  | nil => intro acc; simp
  | cons it rest ih =>
    intro acc
    rw [List.foldl_cons, ih (parseStep normalize fname acc it)]
    cases hit : parseItem normalize fname it with
    | none =>
      simp [parseStep, hit, List.countP_cons, Nat.add_comm, Nat.add_assoc,
        Nat.add_left_comm]
    | some pr =>
      obtain ⟨row, imgs⟩ := pr
      simp [parseStep, hit, List.countP_cons]

theorem parseFile_bad (normalize : Bool) (fname : String) (items : List JVal) :
    (parseFile normalize fname items).bad_items
      = items.countP (fun it => (parseItem normalize fname it).isNone) := by
  unfold parseFile
  rw [parseFold_spec]
  simp

theorem parseFile_rows (normalize : Bool) (fname : String) (items : List JVal) :
    (parseFile normalize fname items).product_rows
      = items.filterMap (fun it => (parseItem normalize fname it).map Prod.fst) := by
  unfold parseFile
  rw [parseFold_spec]
  simp

theorem parseFile_imgs (normalize : Bool) (fname : String) (items : List JVal) :
    (parseFile normalize fname items).image_rows
      = items.flatMap (fun it =>
          ((parseItem normalize fname it).map Prod.snd).getD []) := by
  unfold parseFile
  rw [parseFold_spec]
  simp

theorem parse_count_len (normalize : Bool) (fname : String) :
    ∀ items : List JVal,
      (items.filterMap (fun it => (parseItem normalize fname it).map Prod.fst)).length
        + items.countP (fun it => (parseItem normalize fname it).isNone)
        = items.length := by
  intro items
  induction items with
  | nil => rfl
  | cons it rest ih =>
    cases hit : parseItem normalize fname it with
    | none => simp [hit, List.countP_cons]; omega
    | some pr => simp [hit, List.countP_cons]; omega

/-- C7: an item whose id is missing or not coercible to an integer is
rejected, adding one to the file's bad-item count without stopping the
loop (the counts and row list are computed over every item of the file);
an accepted item's remaining fields pass through verbatim — absent fields
become null and a missing images key becomes the empty list. -/
theorem C7_validator (normalize : Bool) (fname : String) (items : List JVal) :
    (parseFile normalize fname items).bad_items
        = items.countP (fun it => (parseItem normalize fname it).isNone) ∧
    (parseFile normalize fname items).product_rows
        = items.filterMap (fun it => (parseItem normalize fname it).map Prod.fst) ∧
    (parseFile normalize fname items).product_rows.length
        + (parseFile normalize fname items).bad_items = items.length ∧
    (∀ fields : List (String × JVal),
      pyInt (lookupField fields "id") = none →
      parseItem normalize fname (.obj fields) = none) ∧
    (∀ fields row imgs,
      parseItem normalize fname (.obj fields) = some (row, imgs) →
      pyInt (lookupField fields "id") = some row.id ∧
      row.name = lookupField fields "name" ∧
      row.url_key = lookupField fields "url_key" ∧
      row.price = lookupField fields "price" ∧
      row.description = lookupField fields "description" ∧
      row.images = (lookupField fields "images").getD (.arr []) ∧
      row.source_file = fname) := by
  refine ⟨parseFile_bad normalize fname items, parseFile_rows normalize fname items,
    ?_, ?_, ?_⟩
  · rw [parseFile_bad, parseFile_rows]
    exact parse_count_len normalize fname items
  · intro fields h
    simp [parseItem, h]
  · intro fields row imgs hparse
    cases hid : pyInt (lookupField fields "id") with
    | none => simp [parseItem, hid] at hparse
    | some pid =>
      simp only [parseItem, hid, Option.some.injEq, Prod.mk.injEq] at hparse
      obtain ⟨hrow, _⟩ := hparse
      rw [← hrow]
      exact ⟨rfl, rfl, rfl, rfl, rfl, rfl, rfl⟩

/-- Concrete file content for the validator claim: a rejected item (string
id that int() refuses) followed by an accepted one. -/
def itemsC7 : List JVal := [.obj [("id", .str "abc")], .obj [("id", .int 2)]]

theorem C7_validator_witness :
    parseItem false "f" (.obj [("id", JVal.null)]) = none ∧
    (parseFile false "f" itemsC7).bad_items
      = itemsC7.countP (fun it => (parseItem false "f" it).isNone) ∧
    (parseFile false "f" itemsC7).bad_items = 1 :=
  ⟨(C7_validator false "f" itemsC7).2.2.2.1 [("id", JVal.null)] rfl,
    (C7_validator false "f" itemsC7).1,
    by with_unfolding_all rfl⟩

/-! ## Lemmas for the disabled-normalization driver -/

theorem parseItem_false_imgs (fname : String) (it : JVal) (row : ProductRow)
    (imgs : List ImgRow) (h : parseItem false fname it = some (row, imgs)) :
    imgs = [] := by
  cases it with
  | obj fields =>
    cases hid : pyInt (lookupField fields "id") with
    | none => simp [parseItem, hid] at h
    | some pid =>
      simp only [parseItem, hid, Option.some.injEq, Prod.mk.injEq] at h
      simp [← h.2]
  | null => simp [parseItem] at h
  | bool b => simp [parseItem] at h
  | int n => simp [parseItem] at h
  | str s => simp [parseItem] at h
  | arr xs => simp [parseItem] at h

theorem parseFile_false_imgs (fname : String) (items : List JVal) :
    (parseFile false fname items).image_rows = [] := by
  rw [parseFile_imgs]
  induction items with
  | nil => rfl
  | cons it rest ih =>
    rw [List.flatMap_cons, ih, List.append_nil]
    cases hit : parseItem false fname it with
    | none => rfl
    | some pr =>
      obtain ⟨row, imgs⟩ := pr
      simp [parseItem_false_imgs fname it row imgs hit]

theorem applyFile_false_applied (env : Env) (bs now : Nat) (fname : String)
    (fp : FileParse) (db : DB) (db2 : DB) (tp ti calls : Nat)
    (h : applyFile env false bs now fname fp db = .applied db2 tp ti calls) :
    db2.images = db.images ∧ db2.images_exists = db.images_exists
      ∧ ti = 0 ∧ calls = 0 := by
  unfold applyFile at h
  cases hrun : runProdChunks now (env.prodFailAt fname)
      (chunks fp.product_rows bs) 0 db.products 0 with
  | error tp2 => rw [hrun] at h; cases h
  | ok pr =>
    obtain ⟨ptbl, tp2⟩ := pr
    rw [hrun] at h
    simp only [Bool.false_and, Bool.false_eq_true, if_false] at h
    cases h
    exact ⟨rfl, rfl, rfl, rfl⟩

theorem applyFile_false_failed (env : Env) (bs now : Nat) (fname : String)
    (fp : FileParse) (db : DB) (tp ti calls : Nat)
    (h : applyFile env false bs now fname fp db = .failed tp ti calls) :
    ti = 0 ∧ calls = 0 := by
  unfold applyFile at h
  cases hrun : runProdChunks now (env.prodFailAt fname)
      (chunks fp.product_rows bs) 0 db.products 0 with
  | error tp2 =>
    rw [hrun] at h
    cases h
    exact ⟨rfl, rfl⟩
  | ok pr =>
    obtain ⟨ptbl, tp2⟩ := pr
    rw [hrun] at h
    simp only [Bool.false_and, Bool.false_eq_true, if_false] at h
    cases h

theorem processOneFile_false_success (env : Env) (bs now : Nat) (fname : String)
    (db db2 : DB) (tp ti calls : Nat)
    (h : processOneFile env false bs now fname db = .success db2 tp ti calls) :
    db2.images = db.images ∧ db2.images_exists = db.images_exists
      ∧ ti = 0 ∧ calls = 0 := by
  unfold processOneFile at h
  cases hload : load_products_from_file fname (env.content fname) with
  | error e => simp only [hload] at h; cases h
  | ok items =>
    simp only [hload] at h
    cases happ : applyFile env false bs now fname (parseFile false fname items) db with
    | failed a b c => simp only [happ] at h; cases h
    | applied d a b c =>
      simp only [happ, FileResult.success.injEq] at h
      obtain ⟨rfl, rfl, rfl, rfl⟩ := h
      exact applyFile_false_applied env bs now fname _ db _ _ _ _ happ

theorem processOneFile_false_upsertErr (env : Env) (bs now : Nat) (fname : String)
    (db : DB) (tp ti calls : Nat)
    (h : processOneFile env false bs now fname db = .upsertErr tp ti calls) :
    ti = 0 ∧ calls = 0 := by
  unfold processOneFile at h
  cases hload : load_products_from_file fname (env.content fname) with
  | error e => simp only [hload] at h; cases h
  | ok items =>
    simp only [hload] at h
    cases happ : applyFile env false bs now fname (parseFile false fname items) db with
    | failed a b c =>
      simp only [happ, FileResult.upsertErr.injEq] at h
      obtain ⟨rfl, rfl, rfl⟩ := h
      exact applyFile_false_failed env bs now fname _ db _ _ _ happ
    | applied d a b c => simp only [happ] at h; cases h

theorem processFiles_false_images (env : Env) (bs now : Nat) :
    ∀ (files : List String) (st : LoopSt),
      (processFiles env false bs now files st).2.db.images = st.db.images ∧
      (processFiles env false bs now files st).2.db.images_exists
        = st.db.images_exists ∧
      (processFiles env false bs now files st).2.ti = st.ti ∧
      (processFiles env false bs now files st).2.calls = st.calls := by
  intro files
  induction files with
  | nil => intro st; exact ⟨rfl, rfl, rfl, rfl⟩
  | cons fname rest ih =>
    intro st
    simp only [processFiles]
    cases hone : processOneFile env false bs now fname st.db with
    | decodeErr e => exact ⟨rfl, rfl, rfl, rfl⟩
    | upsertErr tp ti calls =>
      obtain ⟨hti, hcalls⟩ :=
        processOneFile_false_upsertErr env bs now fname st.db tp ti calls hone
      subst hti
      subst hcalls
      exact ⟨rfl, rfl, rfl, rfl⟩
    | success db2 tp ti calls =>
      obtain ⟨him, hie, hti, hcalls⟩ :=
        processOneFile_false_success env bs now fname st.db db2 tp ti calls hone
      subst hti
      subst hcalls
      have h2 := ih ⟨db2, st.tp + tp, st.ti + 0, st.calls + 0, st.committed ++ [fname]⟩
      simpa [him, hie] using h2

/-- C5: main disables image normalization unconditionally: in every run
the images-table DDL is never executed (the table-exists flag is
untouched), the stored image rows are untouched, upsert_images is never
invoked, the reported images total is 0, and no record yields image rows
under the disabled flag. -/
theorem C5_normalization_disabled (env : Env) (now : Nat) :
    (mainRun env now).ti = 0 ∧
    (mainRun env now).calls = 0 ∧
    (mainRun env now).db.images = env.initDB.images ∧
    (mainRun env now).db.images_exists = env.initDB.images_exists ∧
    (∀ fname items, (parseFile false fname items).image_rows = []) := by
  have hparse : ∀ fname items, (parseFile false fname items).image_rows = [] :=
    parseFile_false_imgs
  unfold mainRun mainWith
  cases hiter : iter_product_files env.path with
  | error e => exact ⟨rfl, rfl, rfl, rfl, hparse⟩
  | ok files =>
    cases hcb : env.connectOk with
    | false => exact ⟨rfl, rfl, rfl, rfl, hparse⟩
    | true =>
      cases hpb : env.privilegeOk with
      | false => exact ⟨rfl, rfl, rfl, rfl, hparse⟩
      | true =>
        have h := processFiles_false_images env 1000 now files
          ⟨runDDL env.initDB false, 0, 0, 0, []⟩
        exact ⟨h.2.2.1, h.2.2.2, h.1, h.2.1, hparse⟩

/-! ## Lexicographic order facts for the sorted file list -/

theorem charListLe_total : ∀ as bs : List Char,
    charListLe as bs = true ∨ charListLe bs as = true := by
  intro as
  induction as with
  | nil => intro bs; left; rfl
  | cons a as2 ih =>
    intro bs
    cases bs with
    | nil => right; rfl
    | cons b bs2 =>
      by_cases hab : a = b
      · subst hab
        rcases ih bs2 with h | h
        · left; simpa [charListLe] using h
        · right; simpa [charListLe] using h
      · rcases lt_trichotomy a b with hlt | heq | hgt
        · left; simp [charListLe, hab, hlt]
        · exact absurd heq hab
        · right
          simp [charListLe, Ne.symm hab, hgt]

theorem charListLe_trans : ∀ as bs cs : List Char,
    charListLe as bs = true → charListLe bs cs = true →
    charListLe as cs = true := by
  intro as
  induction as with
  | nil => intro bs cs h1 h2; rfl
  | cons a as2 ih =>
    intro bs cs h1 h2
    cases bs with
    | nil => simp [charListLe] at h1
    | cons b bs2 =>
      cases cs with
      | nil => simp [charListLe] at h2
      | cons c cs2 =>
        by_cases hab : a = b
        · subst hab
          simp only [charListLe, if_pos rfl] at h1
          by_cases hac : a = c
          · subst hac
            simp only [charListLe, if_pos rfl] at h2 ⊢
            exact ih bs2 cs2 h1 h2
          · simp only [charListLe, if_neg hac] at h2 ⊢
            exact h2
        · simp only [charListLe, if_neg hab, decide_eq_true_eq] at h1
          by_cases hbc : b = c
          · subst hbc
            simp [charListLe, hab, h1]
          · simp only [charListLe, if_neg hbc, decide_eq_true_eq] at h2
            have hac : a < c := lt_trans h1 h2
            simp [charListLe, ne_of_lt hac, hac]

instance : IsTotal String (fun a b => strLe a b = true) :=
  ⟨fun a b => charListLe_total a.toList b.toList⟩

instance : IsTrans String (fun a b => strLe a b = true) :=
  ⟨fun a b c => charListLe_trans a.toList b.toList c.toList⟩

theorem iter_dir_sorted (entries : List String) (files : List String)
    (hiter : iter_product_files (.dir entries) = .ok files) :
    files.Sorted (fun a b => strLe a b = true) := by
  simp only [iter_product_files] at hiter
  by_cases hemp : ((entries.filter matchesGlob).insertionSort
      (fun a b => strLe a b = true)).isEmpty
  · rw [if_pos hemp] at hiter
    cases hiter
  · rw [if_neg hemp] at hiter
    obtain rfl : (entries.filter matchesGlob).insertionSort
        (fun a b => strLe a b = true) = files := by
      injection hiter
    exact List.sorted_insertionSort _ _

/-! ## Run-level characterizations -/

theorem runProdChunks_ok (now : Nat) (failAt : Option Nat) :
    ∀ (cs : List (List ProductRow)) (idx : Nat) (tbl : List StoredProduct)
      (tp : Nat) (tbl2 : List StoredProduct) (tp2 : Nat),
      runProdChunks now failAt cs idx tbl tp = .ok (tbl2, tp2) →
      tbl2 = cs.foldl (upsert_products now) tbl := by
  intro cs
  induction cs with
  | nil =>
    intro idx tbl tp tbl2 tp2 h
    simp only [runProdChunks, Except.ok.injEq, Prod.mk.injEq] at h
    exact h.1.symm
  | cons c cs2 ih =>
    intro idx tbl tp tbl2 tp2 h
    unfold runProdChunks at h
    by_cases hf : failAt = some idx
    · rw [if_pos hf] at h
      cases h
    · rw [if_neg hf] at h
      exact ih (idx + 1) (upsert_products now tbl c) (tp + c.length) tbl2 tp2 h

theorem foldl_upsert_products_chunks (now bs : Nat) (hbs : 0 < bs)
    (tbl : List StoredProduct) (rows : List ProductRow) :
    (chunks rows bs).foldl (upsert_products now) tbl
      = upsert_products now tbl rows := by
  conv_rhs => rw [← chunks_flatten rows bs hbs]
  unfold upsert_products
  rw [List.foldl_flatten]

/-- The product rows main derives from one file under the disabled
normalization flag (empty when the file does not decode). -/
def rowsOfFile (env : Env) (fname : String) : List ProductRow :=
  match load_products_from_file fname (env.content fname) with
  | .error _ => []
  | .ok items => (parseFile false fname items).product_rows

/-- All product rows of a run, in processing order. -/
def allRows (env : Env) (files : List String) : List ProductRow :=
  files.flatMap (rowsOfFile env)

theorem processOneFile_success_products (env : Env) (bs now : Nat)
    (hbs : 0 < bs) (fname : String) (db db2 : DB) (tp ti calls : Nat)
    (h : processOneFile env false bs now fname db = .success db2 tp ti calls) :
    db2.products = upsert_products now db.products (rowsOfFile env fname) := by
  unfold processOneFile at h
  cases hload : load_products_from_file fname (env.content fname) with
  | error e => simp only [hload] at h; cases h
  | ok items =>
    simp only [hload] at h
    cases happ : applyFile env false bs now fname (parseFile false fname items) db with
    | failed a b c => simp only [happ] at h; cases h
    | applied d a b c =>
      simp only [happ, FileResult.success.injEq] at h
      obtain ⟨rfl, rfl, rfl, rfl⟩ := h
      unfold applyFile at happ
      cases hrun : runProdChunks now (env.prodFailAt fname)
          (chunks (parseFile false fname items).product_rows bs) 0 db.products 0 with
      | error tp3 => rw [hrun] at happ; cases happ
      | ok pr =>
        obtain ⟨ptbl, tp3⟩ := pr
        rw [hrun] at happ
        simp only [Bool.false_and, Bool.false_eq_true, if_false,
          FileApply.applied.injEq] at happ
        obtain ⟨rfl, -, -, -⟩ := happ
        have hp := runProdChunks_ok now (env.prodFailAt fname) _ 0 db.products 0 ptbl tp3 hrun
        rw [show rowsOfFile env fname = (parseFile false fname items).product_rows from by
          unfold rowsOfFile; rw [hload]]
        rw [← foldl_upsert_products_chunks now bs hbs db.products
          (parseFile false fname items).product_rows]
        exact hp

theorem processFiles_ok_products (env : Env) (now : Nat) :
    ∀ (files : List String) (st : LoopSt) (st2 : LoopSt),
      processFiles env false 1000 now files st = (.ok 0, st2) →
      st2.db.products = upsert_products now st.db.products (allRows env files) := by
  intro files
  induction files with
  | nil =>
    intro st st2 h
    simp only [processFiles, Prod.mk.injEq] at h
    rw [← h.2]
    rfl
  | cons fname rest ih =>
    intro st st2 h
    simp only [processFiles] at h
    cases hone : processOneFile env false 1000 now fname st.db with
    | decodeErr e => rw [hone] at h; simp at h
    | upsertErr tp ti calls =>
      rw [hone] at h
      simp only [Prod.mk.injEq, Except.ok.injEq] at h
      omega
    | success db2 tp ti calls =>
      rw [hone] at h
      have h2 := ih ⟨db2, st.tp + tp, st.ti + ti, st.calls + calls,
        st.committed ++ [fname]⟩ st2 h
      have h1 := processOneFile_success_products env 1000 now (by omega)
        fname st.db db2 tp ti calls hone
      rw [h2, h1]
      show upsert_products now _ (allRows env rest)
        = upsert_products now st.db.products (rowsOfFile env fname ++ allRows env rest)
      unfold upsert_products
      rw [List.foldl_append]

/-- A file on which the loop body always succeeds (decode ok and every
batch statement applies), whatever the committed database. -/
def fileSucceeds (env : Env) (normalize : Bool) (bs now : Nat) (f : String) : Prop :=
  ∀ db, ∃ db2 tp ti calls,
    processOneFile env normalize bs now f db = .success db2 tp ti calls

/-- A file on which a batch statement raises (after a successful decode),
whatever the committed database. -/
def fileUpsertFails (env : Env) (normalize : Bool) (bs now : Nat) (f : String) : Prop :=
  ∀ db, ∃ tp ti calls,
    processOneFile env normalize bs now f db = .upsertErr tp ti calls

/-- The committed database after one file of the loop: the file's working
database on success, the unchanged committed database otherwise. -/
def commitStep (env : Env) (normalize : Bool) (bs now : Nat) (db : DB)
    (f : String) : DB :=
  match processOneFile env normalize bs now f db with
  | .success db2 _ _ _ => db2
  | _ => db

theorem processFiles_prefix (env : Env) (n : Bool) (bs now : Nat) :
    ∀ (pre : List String) (st : LoopSt) (rest : List String),
      (∀ f ∈ pre, fileSucceeds env n bs now f) →
      ∃ st2 : LoopSt,
        processFiles env n bs now (pre ++ rest) st
          = processFiles env n bs now rest st2 ∧
        st2.db = pre.foldl (commitStep env n bs now) st.db ∧
        st2.committed = st.committed ++ pre := by
  intro pre
  induction pre with
  | nil =>
    intro st rest _
    exact ⟨st, by simp, rfl, by simp⟩
  | cons f pre2 ih =>
    intro st rest hall
    obtain ⟨db2, tp, ti, calls, hone⟩ := hall f (by simp) st.db
    have hstep : processFiles env n bs now ((f :: pre2) ++ rest) st
        = processFiles env n bs now (pre2 ++ rest)
            ⟨db2, st.tp + tp, st.ti + ti, st.calls + calls,
              st.committed ++ [f]⟩ := by
      simp only [List.cons_append, processFiles, hone]
      rfl
    obtain ⟨st2, heq, hdb, hcom⟩ := ih
      ⟨db2, st.tp + tp, st.ti + ti, st.calls + calls, st.committed ++ [f]⟩
      rest (fun g hg => hall g (by simp [hg]))
    refine ⟨st2, hstep.trans heq, ?_, ?_⟩
    · rw [hdb]
      show pre2.foldl (commitStep env n bs now) db2
        = (f :: pre2).foldl (commitStep env n bs now) st.db
      rw [List.foldl_cons]
      congr 1
      unfold commitStep
      rw [hone]
    · rw [hcom]
      simp
  
theorem processFiles_fail_head (env : Env) (n : Bool) (bs now : Nat)
    (f : String) (rest : List String) (st : LoopSt)
    (hf : fileUpsertFails env n bs now f) :
    (processFiles env n bs now (f :: rest) st).1 = .ok 3 ∧
    (processFiles env n bs now (f :: rest) st).2.db = st.db ∧
    (processFiles env n bs now (f :: rest) st).2.committed = st.committed := by
  obtain ⟨tp, ti, calls, hone⟩ := hf st.db
  simp [processFiles, hone]

theorem processFiles_decode_head (env : Env) (n : Bool) (bs now : Nat)
    (f : String) (rest : List String) (st : LoopSt) (e : PyExc)
    (hload : load_products_from_file f (env.content f) = .error e) :
    processFiles env n bs now (f :: rest) st = (.error e, st) := by
  simp only [processFiles, processOneFile, hload]

theorem mainRun_loop (env : Env) (now : Nat) (files : List String)
    (hiter : iter_product_files env.path = .ok files)
    (hc : env.connectOk = true) (hp : env.privilegeOk = true) :
    mainRun env now
      = ⟨(processFiles env false 1000 now files
            ⟨runDDL env.initDB false, 0, 0, 0, []⟩).1,
         (processFiles env false 1000 now files
            ⟨runDDL env.initDB false, 0, 0, 0, []⟩).2.db,
         (processFiles env false 1000 now files
            ⟨runDDL env.initDB false, 0, 0, 0, []⟩).2.tp,
         (processFiles env false 1000 now files
            ⟨runDDL env.initDB false, 0, 0, 0, []⟩).2.ti,
         (processFiles env false 1000 now files
            ⟨runDDL env.initDB false, 0, 0, 0, []⟩).2.calls,
         (processFiles env false 1000 now files
            ⟨runDDL env.initDB false, 0, 0, 0, []⟩).2.committed⟩ := by
  unfold mainRun mainWith
  simp only [hiter, hc, hp, Bool.not_true, Bool.false_eq_true, if_false]

/-- C6 (sortedness and later-files-win): a directory scan yields the
lexicographically sorted list of matching files, and on a fully
successful run the stored row for an id is the image of the last row for
that id in the concatenation of the files' valid rows in processing
order — so when two files both carry the id, the lexicographically later
file's data wins. -/
theorem C6_sorted_last_wins :
    (∀ entries files : List String,
      iter_product_files (.dir entries) = .ok files →
      files.Sorted (fun a b => strLe a b = true)) ∧
    (∀ (env : Env) (now : Nat) (files : List String) (pid : Int)
       (rB : ProductRow),
      iter_product_files env.path = .ok files →
      (mainRun env now).result = .ok 0 →
      (allRows env files).reverse.find? (fun q => q.id == pid) = some rB →
      (mainRun env now).db.products.find? (fun s => s.id == pid)
        = some (toStored now rB)) := by
  constructor
  · exact iter_dir_sorted
  · intro env now files pid rB hiter hres hlast
    cases hcb : env.connectOk with
    | false =>
      exfalso
      unfold mainRun mainWith at hres
      simp [hiter, hcb] at hres
    | true =>
      cases hpb : env.privilegeOk with
      | false =>
        exfalso
        unfold mainRun mainWith at hres
        simp [hiter, hcb, hpb] at hres
      | true =>
        have hmain := mainRun_loop env now files hiter hcb hpb
        rw [hmain] at hres ⊢
        rcases hout : processFiles env false 1000 now files
            ⟨runDDL env.initDB false, 0, 0, 0, []⟩ with ⟨r, st2⟩
        simp only [hout] at hres ⊢
        obtain rfl : r = .ok 0 := hres
        have hchar := processFiles_ok_products env now files
          ⟨runDDL env.initDB false, 0, 0, 0, []⟩ st2 hout
        rw [hchar]
        exact find?_upsert_products_last now _ (allRows env files) pid rB hlast

/-- Concrete two-file directory for the last-writer-wins claim: both
files carry id 7, the lexicographically later one with name "B". -/
def envC6 : Env :=
  { path := .dir ["products_b.json", "products_a.json"],
    content := fun n =>
      if n = "products_a.json" then
        .ok (.arr [.obj [("id", .int 7), ("name", .str "A")]])
      else if n = "products_b.json" then
        .ok (.arr [.obj [("id", .int 7), ("name", .str "B")]])
      else .jsonError 0 0 "missing",
    connectOk := true, privilegeOk := true,
    prodFailAt := fun _ => none, imgFailAt := fun _ => none,
    initDB := ⟨false, false, [], []⟩ }

/-- The row of the later file in envC6. -/
def rowB6 : ProductRow :=
  ⟨7, some (.str "B"), none, none, none, .arr [], "products_b.json"⟩

theorem C6_sorted_last_wins_witness :
    (iter_product_files envC6.path
        = .ok ["products_a.json", "products_b.json"] ∧
      (mainRun envC6 0).result = .ok 0 ∧
      (allRows envC6 ["products_a.json", "products_b.json"]).reverse.find?
          (fun q => q.id == (7 : Int)) = some rowB6) ∧
    List.Sorted (fun a b => strLe a b = true)
      ["products_a.json", "products_b.json"] ∧
    (mainRun envC6 0).db.products.find? (fun s => s.id == (7 : Int))
      = some (toStored 0 rowB6) := by
  have hiter : iter_product_files envC6.path
      = .ok ["products_a.json", "products_b.json"] := by with_unfolding_all rfl
  have hres : (mainRun envC6 0).result = .ok 0 := by with_unfolding_all rfl
  have hlast : (allRows envC6 ["products_a.json", "products_b.json"]).reverse.find?
      (fun q => q.id == (7 : Int)) = some rowB6 := by with_unfolding_all rfl
  exact ⟨⟨hiter, hres, hlast⟩,
    C6_sorted_last_wins.1 ["products_b.json", "products_a.json"] _ hiter,
    C6_sorted_last_wins.2 envC6 0 _ 7 rowB6 hiter hres hlast⟩

/-- Concrete run for the upsert-error claim: the first (sorted) file's
batch statement raises; the second file is valid and would load. -/
def envC1 : Env :=
  { path := .dir ["products_a.json", "products_b.json"],
    content := fun n =>
      if n = "products_a.json" then .ok (.arr [.obj [("id", .int 1)]])
      else if n = "products_b.json" then .ok (.arr [.obj [("id", .int 2)]])
      else .jsonError 0 0 "missing",
    connectOk := true, privilegeOk := true,
    prodFailAt := fun n => if n = "products_a.json" then some 0 else none,
    imgFailAt := fun _ => none,
    initDB := ⟨false, false, [], []⟩ }

/-- C1 as stated is false: with two discovered files where the first
file's batch statement raises, the run returns 3 immediately — the
second, perfectly valid file is never processed (nothing is committed
and its row is absent), contradicting that the orchestrator proceeds to
the remaining files. -/
theorem C1_isolation_counterexample :
    iter_product_files envC1.path = .ok ["products_a.json", "products_b.json"] ∧
    (mainRun envC1 0).result = .ok 3 ∧
    (mainRun envC1 0).committed = [] ∧
    (mainRun envC1 0).db.products = [] := by
  refine ⟨?_, ?_, ?_, ?_⟩ <;> with_unfolding_all rfl

/-- C1 amended: when a statement error occurs while a file's batches are
applied, that file's transaction is rolled back (the committed database
is exactly the commits of the preceding files) and main returns exit
status 3 immediately: the remaining files are not processed and the
committed-file list is exactly the preceding files. -/
theorem C1_upsert_error_aborts_run (env : Env) (now : Nat)
    (pre : List String) (fname : String) (rest : List String)
    (hiter : iter_product_files env.path = .ok (pre ++ fname :: rest))
    (hc : env.connectOk = true) (hp : env.privilegeOk = true)
    (hpre : ∀ f ∈ pre, fileSucceeds env false 1000 now f)
    (hfail : fileUpsertFails env false 1000 now fname) :
    (mainRun env now).result = .ok 3 ∧
    (mainRun env now).committed = pre ∧
    (mainRun env now).db
      = pre.foldl (commitStep env false 1000 now) (runDDL env.initDB false) := by
  have hmain := mainRun_loop env now (pre ++ fname :: rest) hiter hc hp
  obtain ⟨st2, heq, hdb, hcom⟩ := processFiles_prefix env false 1000 now pre
    ⟨runDDL env.initDB false, 0, 0, 0, []⟩ (fname :: rest) hpre
  have hff := processFiles_fail_head env false 1000 now fname rest st2 hfail
  have h1 : (processFiles env false 1000 now (pre ++ fname :: rest)
      ⟨runDDL env.initDB false, 0, 0, 0, []⟩).1 = .ok 3 := by
    rw [heq]
    exact hff.1
  have h2 : (processFiles env false 1000 now (pre ++ fname :: rest)
      ⟨runDDL env.initDB false, 0, 0, 0, []⟩).2.committed = pre := by
    rw [heq, hff.2.2, hcom]
    simp
  have h3 : (processFiles env false 1000 now (pre ++ fname :: rest)
      ⟨runDDL env.initDB false, 0, 0, 0, []⟩).2.db
      = pre.foldl (commitStep env false 1000 now) (runDDL env.initDB false) := by
    rw [heq, hff.2.1, hdb]
  rw [hmain]
  exact ⟨h1, h2, h3⟩

theorem C1_upsert_error_aborts_run_witness :
    (mainRun envC1 0).result = .ok 3 ∧ (mainRun envC1 0).committed = [] := by
  have h := C1_upsert_error_aborts_run envC1 0 [] "products_a.json"
    ["products_b.json"]
    (by with_unfolding_all rfl) rfl rfl
    (by intro f hf; cases hf)
    (by intro db; exact ⟨0, 0, 0, by with_unfolding_all rfl⟩)
  exact ⟨h.1, h.2.1⟩

/-- Concrete run for the decode-error claim: the first (sorted) file is
malformed JSON, the second is valid. -/
def envC8 : Env :=
  { path := .dir ["products_a.json", "products_b.json"],
    content := fun n =>
      if n = "products_a.json" then .jsonError 3 7 "Expecting value"
      else if n = "products_b.json" then .ok (.arr [.obj [("id", .int 2)]])
      else .jsonError 0 0 "missing",
    connectOk := true, privilegeOk := true,
    prodFailAt := fun _ => none, imgFailAt := fun _ => none,
    initDB := ⟨false, false, [], []⟩ }

/-- C8 as stated is false: during a directory scan of two files where
the first is malformed, the error is not confined to that file — it
propagates out of the loop, the run exits 2, and the subsequent valid
file is never processed (nothing committed, its row absent). -/
theorem C8_decode_isolation_counterexample :
    iter_product_files envC8.path = .ok ["products_a.json", "products_b.json"] ∧
    (mainRun envC8 0).result
      = .error (.runtimeError
          "Invalid JSON in products_a.json (line 3, col 7): Expecting value") ∧
    classifyExit (mainRun envC8 0).result = 2 ∧
    (mainRun envC8 0).committed = [] ∧
    (mainRun envC8 0).db.products = [] := by
  refine ⟨?_, ?_, ?_, ?_, ?_⟩ <;> with_unfolding_all rfl

/-- C8 amended: a file whose JSON is malformed aborts the entire run,
not just that file: the RuntimeError carrying the file name and
line/column detail propagates out of main (process exit status 2), the
files before it in sorted order keep their committed work, and the
remaining files are not processed. -/
theorem C8_decode_error_aborts_run (env : Env) (now : Nat)
    (pre : List String) (fname : String) (rest : List String)
    (line col : Nat) (msg : String)
    (hiter : iter_product_files env.path = .ok (pre ++ fname :: rest))
    (hc : env.connectOk = true) (hp : env.privilegeOk = true)
    (hpre : ∀ f ∈ pre, fileSucceeds env false 1000 now f)
    (hmal : env.content fname = .jsonError line col msg) :
    (mainRun env now).result
      = .error (.runtimeError ("Invalid JSON in " ++ fname ++ " (line "
          ++ toString line ++ ", col " ++ toString col ++ "): " ++ msg)) ∧
    classifyExit (mainRun env now).result = 2 ∧
    (mainRun env now).committed = pre ∧
    (mainRun env now).db
      = pre.foldl (commitStep env false 1000 now) (runDDL env.initDB false) := by
  have hload : load_products_from_file fname (env.content fname)
      = .error (.runtimeError ("Invalid JSON in " ++ fname ++ " (line "
          ++ toString line ++ ", col " ++ toString col ++ "): " ++ msg)) := by
    rw [hmal]
    rfl
  have hmain := mainRun_loop env now (pre ++ fname :: rest) hiter hc hp
  obtain ⟨st2, heq, hdb, hcom⟩ := processFiles_prefix env false 1000 now pre
    ⟨runDDL env.initDB false, 0, 0, 0, []⟩ (fname :: rest) hpre
  have hhd := processFiles_decode_head env false 1000 now fname rest st2 _ hload
  have h1 : (processFiles env false 1000 now (pre ++ fname :: rest)
      ⟨runDDL env.initDB false, 0, 0, 0, []⟩).1
      = .error (.runtimeError ("Invalid JSON in " ++ fname ++ " (line "
          ++ toString line ++ ", col " ++ toString col ++ "): " ++ msg)) := by
    rw [heq, hhd]
  have h2 : (processFiles env false 1000 now (pre ++ fname :: rest)
      ⟨runDDL env.initDB false, 0, 0, 0, []⟩).2.committed = pre := by
    rw [heq, hhd, hcom]
    simp
  have h3 : (processFiles env false 1000 now (pre ++ fname :: rest)
      ⟨runDDL env.initDB false, 0, 0, 0, []⟩).2.db
      = pre.foldl (commitStep env false 1000 now) (runDDL env.initDB false) := by
    rw [heq, hhd, hdb]
  rw [hmain]
  refine ⟨h1, ?_, h2, h3⟩
  show classifyExit (processFiles env false 1000 now (pre ++ fname :: rest)
      ⟨runDDL env.initDB false, 0, 0, 0, []⟩).1 = 2
  rw [h1]
  rfl

theorem C8_decode_error_aborts_run_witness :
    (mainRun envC8 0).result
      = .error (.runtimeError ("Invalid JSON in " ++ "products_a.json"
          ++ " (line " ++ toString (3 : Nat) ++ ", col " ++ toString (7 : Nat)
          ++ "): " ++ "Expecting value")) ∧
    classifyExit (mainRun envC8 0).result = 2 := by
  have h := C8_decode_error_aborts_run envC8 0 [] "products_a.json"
    ["products_b.json"] 3 7 "Expecting value"
    (by with_unfolding_all rfl) rfl rfl
    (by intro f hf; cases hf)
    (by with_unfolding_all rfl)
  exact ⟨h.1, h.2.1⟩

/-- C9 as stated is false: the process handler maps KeyboardInterrupt
(cancellation by the user) to exit status 130, not 2. -/
theorem C9_exit_codes_counterexample :
    classifyExit (.error .keyboardInterrupt) = 130 ∧
    classifyExit (.error .keyboardInterrupt) ≠ 2 :=
  ⟨rfl, by decide⟩

/-- C9 amended: exit status 0 on full success (main's return value is
the status), 2 for usage/input errors (bad path, malformed JSON — i.e.
FileNotFoundError, ValueError, RuntimeError), 130 for cancellation by
the user, 3 for database errors (connection failure, insufficient
privilege, upsert failure — main returns 3), and 4 for unclassified
failures. -/
theorem C9_exit_codes :
    (∀ env now, env.path = .missing → topLevelExit env now = 2) ∧
    (∀ env now n, (mainRun env now).result = .ok n → topLevelExit env now = n) ∧
    (∀ msg, classifyExit (.error (.fileNotFound msg)) = 2 ∧
      classifyExit (.error (.valueError msg)) = 2 ∧
      classifyExit (.error (.runtimeError msg)) = 2 ∧
      classifyExit (.error (.other msg)) = 4) ∧
    classifyExit (.error .keyboardInterrupt) = 130 ∧
    (∀ env now files, iter_product_files env.path = .ok files →
      env.connectOk = false → topLevelExit env now = 3) ∧
    (∀ env now files, iter_product_files env.path = .ok files →
      env.connectOk = true → env.privilegeOk = false →
      topLevelExit env now = 3) := by
  refine ⟨?_, ?_, ?_, rfl, ?_, ?_⟩
  · intro env now hmiss
    unfold topLevelExit mainRun mainWith
    simp [hmiss, iter_product_files, classifyExit]
  · intro env now n hok
    unfold topLevelExit
    rw [hok]
    rfl
  · intro msg
    exact ⟨rfl, rfl, rfl, rfl⟩
  · intro env now files hiter hc
    unfold topLevelExit mainRun mainWith
    simp [hiter, hc, classifyExit]
  · intro env now files hiter hc hp
    unfold topLevelExit mainRun mainWith
    simp [hiter, hc, hp, classifyExit]

/-- Concrete environment with a missing input path. -/
def envC9 : Env :=
  { path := .missing, content := fun _ => .jsonError 0 0 "",
    connectOk := true, privilegeOk := true,
    prodFailAt := fun _ => none, imgFailAt := fun _ => none,
    initDB := ⟨false, false, [], []⟩ }

theorem C9_exit_codes_witness : topLevelExit envC9 0 = 2 :=
  C9_exit_codes.1 envC9 0 rfl
